import Mathlib

/-!
Verification development for the HelioSupervisor scoped-retrieval and
request-isolation layer (`app/rag.py`, `app/llm.py`, `app/supervisor.py`,
`app/memory.py`).

Python strings are modelled as `List Char` (`PStr`) so that every string
operation used by the source (`.lower()`, `.strip()`, `.split()`, slicing,
substring containment) is an executable, kernel-reducible Lean function.
Filesystem contents, the FAISS vector store, embeddings and JSON parsing are
external collaborators of the code under study; they are modelled by explicit
data (a file listing, the list of texts an index was built from, an abstract
parse function), while every decision made by the repository's own code is
translated directly.
-/

namespace Helio

/-- Python `str` as a list of characters. -/
abbrev PStr := List Char

/-- Python `s.lower()`. -/
def pyLower (s : PStr) : PStr := s.map Char.toLower

/-- Python `s.strip()`: drop leading and trailing whitespace. -/
def pyStrip (s : PStr) : PStr :=
  ((s.dropWhile Char.isWhitespace).reverse.dropWhile Char.isWhitespace).reverse

/-- Python `s.split()` with no argument: split on whitespace runs, dropping
empty pieces. -/
def pySplitWs (s : PStr) : List PStr :=
  (List.splitOnP Char.isWhitespace s).filter (· ≠ [])

/-- Python `needle in hay` substring containment on strings. -/
def hasSubstr (needle : PStr) : PStr → Bool
  | [] => needle.isEmpty
  | c :: rest => needle.isPrefixOf (c :: rest) || hasSubstr needle rest

/-- Python `s[i : i + n]`. -/
def pySlice (s : PStr) (i n : Nat) : PStr := (s.drop i).take n

/-! ## Scoped retrieval (`app/rag.py`) -/

/-- Loop body of the `range(0, len(content), max_chars)` slicing in the
naive fallback of `build_scoped_search` (`app/rag.py` lines 207-211): take
the next `maxChars`-character slice, continue on the rest. `fuel` bounds the
iteration count; with `fuel ≥ content.length` and `maxChars ≥ 1` it is never
exhausted, so the function computes exactly the Python loop's slices. -/
def stridePiecesGo (maxChars : Nat) : Nat → PStr → List PStr
  | _, [] => []
  | 0, _ => []
  | fuel + 1, c :: cs =>
    ((c :: cs).take maxChars) :: stridePiecesGo maxChars fuel ((c :: cs).drop maxChars)

/-- The successive `content[i : i + maxChars]` slices (`app/rag.py`
lines 207-211). `maxChars = 0` is never passed by the source
(`config.rag_naive_chunk_max_chars or config.rag_chunk_size * 2` is
positive). -/
def stridePieces (maxChars : Nat) (content : PStr) : List PStr :=
  if maxChars = 0 then [] else stridePiecesGo maxChars content.length content

/-- `fallback_chunks` from the except-branch of `build_scoped_search`
(`app/rag.py` lines 206-211): each document's `max_chars` slices, stripped,
blank pieces dropped, in pool order. -/
def fallbackChunks (maxChars : Nat) (raw : List PStr) : List PStr :=
  raw.foldr (fun content acc =>
    ((stridePieces maxChars content).map pyStrip).filter (· ≠ []) ++ acc) []

/-- `[w for w in query.lower().split() if len(w) > 1]` (`app/rag.py`
lines 214-215 and 377-378). -/
def queryWords (query : PStr) : List PStr :=
  (pySplitWs (pyLower query)).filter (fun w => 1 < w.length)

/-- `sum(1 for w in words if w in content_lower)` (`app/rag.py` line 219
and line 382). -/
def naiveScore (words : List PStr) (content : PStr) : Nat :=
  (words.filter (fun w => hasSubstr w (pyLower content))).length

/-- The `scored` list: documents with a positive keyword score, in pool
order (`app/rag.py` lines 216-221 and 379-384). -/
def naiveScored (words : List PStr) (raw : List PStr) : List (Nat × PStr) :=
  raw.foldr (fun content acc =>
    if 0 < naiveScore words content then (naiveScore words content, content) :: acc
    else acc) []

/-- `scored.sort(key=lambda x: -x[0])`: stable sort, descending score. -/
def sortByScoreDesc (l : List (Nat × PStr)) : List (Nat × PStr) :=
  List.insertionSort (fun a b => b.1 ≤ a.1) l

/-- `[s[1][:max_chars] for _, s in scored[:k]]` (`app/rag.py` line 224 and
line 387). Note the source unpacks each `(score, content)` tuple as `_, s`,
so `s` is the content string and `s[1][:max_chars]` is the single character
`content[1]` (well-defined in this branch: a matched query word has length
> 1, so a positively scored content has at least two characters). -/
def scoredSlice (maxChars : Nat) (p : Nat × PStr) : PStr :=
  pySlice (pySlice p.2 1 1) 0 maxChars

/-- The `_naive` closure returned by `build_scoped_search` on its fallback
path (`app/rag.py` lines 213-228): keyword scoring over the raw scoped
documents, with the first-`k` fallback over `fallback_chunks` when nothing
scores. -/
def naive_scoped_search (maxChars : Nat) (raw : List PStr) (query : PStr)
    (k : Nat) : List PStr :=
  let words := queryWords query
  let scored := sortByScoreDesc (naiveScored words raw)
  if scored ≠ [] then (scored.take k).map (scoredSlice maxChars)
  else (fallbackChunks maxChars raw).take k

/-- `_rag_search_naive` (`app/rag.py` lines 372-387): keyword scoring over
the whole document pool, `[]` when the pool is empty — and `[]` (no first-`k`
fallback) when nothing scores. -/
def rag_search_naive (maxChars : Nat) (raw : List PStr) (query : PStr)
    (k : Nat) : List PStr :=
  if raw = [] then []
  else
    let words := queryWords query
    let scored := sortByScoreDesc (naiveScored words raw)
    (scored.take k).map (scoredSlice maxChars)

/-- The `_search` closure returned by `build_scoped_search` on its semantic
path (`app/rag.py` lines 194-199): query the scoped FAISS store (abstracted
as `simSearch`, the list of chunk texts `similarity_search` returns); when it
returns no hits, return the first `top_k` chunk texts instead. -/
def scoped_semantic_search (chunkTexts : List PStr)
    (simSearch : PStr → Nat → List PStr) (query : PStr) (topK : Nat) : List PStr :=
  let found := simSearch query topK
  if found ≠ [] then found else chunkTexts.take topK

/-- The result filter of `rag_search` (`app/rag.py` lines 365-367):
`[c for c in chunks if c and c.strip() != "__placeholder__"]`. -/
def ragSearchFilter (chunks : List PStr) : List PStr :=
  chunks.filter (fun c => c ≠ [] ∧ pyStrip c ≠ "__placeholder__".data)

/-! ## Whole-pool vector store (`app/rag.py` lines 305-352, 390-397) -/

/-- The module-level `_vector_store` cache and the persisted index directory.
A FAISS index is modelled by the list of texts it stores; building,
embedding and serialization are external collaborators. -/
structure RagStoreState where
  cache : Option (List PStr)
  disk : Option (List PStr)
deriving DecidableEq

/-- `_empty_vector_store` (`app/rag.py` lines 349-352): a store holding the
single `"__placeholder__"` text. -/
def empty_vector_store : List PStr := ["__placeholder__".data]

/-- `_get_vector_store` (`app/rag.py` lines 305-346). Returns the active
store's texts and the updated module state. `buildChunks` abstracts the
splitter pipeline (`split_documents` over the pool documents); `loadOk`
abstracts whether `FAISS.load_local` succeeds on the persisted artifact.
Order of decisions follows the source: cached store first, then a persisted
index on disk, then a fresh build from the document pool (persisted on
success; the placeholder store for an empty pool is not persisted). -/
def get_vector_store (buildChunks : List PStr → List PStr) (loadOk : Bool)
    (pool : List PStr) (st : RagStoreState) : List PStr × RagStoreState :=
  match st.cache with
  | some v => (v, st)
  | none =>
    match st.disk, loadOk with
    | some d, true => (d, { st with cache := some d })
    | _, _ =>
      if pool = [] then (empty_vector_store, { st with cache := some empty_vector_store })
      else
        let chunks := buildChunks pool
        if chunks = [] then (empty_vector_store, { st with cache := some empty_vector_store })
        else (chunks, { cache := some chunks, disk := some chunks })

/-- `rag_rebuild_index` (`app/rag.py` lines 390-397): clear the in-memory
cache, then call `_get_vector_store`. -/
def rag_rebuild_index (buildChunks : List PStr → List PStr) (loadOk : Bool)
    (pool : List PStr) (st : RagStoreState) : RagStoreState :=
  (get_vector_store buildChunks loadOk pool { st with cache := none }).2

/-! ## Fallback text splitter (`app/rag.py` lines 288-302) -/

/-- Loop body of `SimpleSplitter.split_documents` on one document
(`app/rag.py` lines 297-300):
`for i in range(0, len(text), chunk_size): chunk = text[i : i + chunk_size]`,
rephrased as iteration on the remaining text with the running start offset
`i`. With `fuel ≥` remaining length and `size ≥ 1` the fuel is never
exhausted, so this computes exactly the Python loop's slices. -/
def simpleSplitGo (size : Nat) : Nat → Nat → PStr → List (Nat × PStr)
  | _, _, [] => []
  | 0, _, _ => []
  | fuel + 1, i, c :: cs =>
    (i, (c :: cs).take size) :: simpleSplitGo size fuel (i + size) ((c :: cs).drop size)

/-- `SimpleSplitter.split_documents` on one document (`app/rag.py`
lines 292-301): fixed-size slices at stride `size`, keeping only chunks whose
strip is non-blank, each paired with its start offset in the source text.
`size = 0` is never passed by the source (Python `range` would reject a zero
step). -/
def simple_split (size : Nat) (text : PStr) : List (Nat × PStr) :=
  if size = 0 then []
  else (simpleSplitGo size text.length 0 text).filter (fun p => pyStrip p.2 ≠ [])

/-- Characters shared by two source-annotated chunks: how far the first
chunk's source range `[start, start + len)` runs past the second's start. -/
def chunkOverlap (p q : Nat × PStr) : Nat := p.1 + p.2.length - q.1

/-! ### Theorems about the retrieval layer -/

theorem naiveScored_eq_nil (words : List PStr) :
    ∀ raw : List PStr, (∀ c ∈ raw, naiveScore words c = 0) →
      naiveScored words raw = [] := by
  intro raw
  induction raw with
  | nil => intro _; rfl
  | cons c cs ih =>
    intro h
    have hc := h c (List.mem_cons_self c cs)
    have hstep : naiveScored words (c :: cs)
        = if 0 < naiveScore words c then (naiveScore words c, c) :: naiveScored words cs
          else naiveScored words cs := rfl
    rw [hstep, if_neg (by omega), ih (fun x hx => h x (List.mem_cons_of_mem c hx))]

/-- C4 (code-bug exhibit): with a stale whole-pool index persisted on disk,
`rag_rebuild_index` does not discard the durable copy — `_get_vector_store`
reloads the persisted artifact, so both the active store and the durable copy
still reflect the old documents, not a fresh build from the current pool. -/
theorem rag_rebuild_index_reloads_stale_disk_index :
    rag_rebuild_index id true ["new document".data]
        ⟨some ["old chunk".data], some ["old chunk".data]⟩
      = ⟨some ["old chunk".data], some ["old chunk".data]⟩
      ∧ id ["new document".data] ≠ ["old chunk".data] :=
  ⟨rfl, by decide⟩

/-- C5 counterexample: the whole-pool lexical fallback `_rag_search_naive`
has no first-`k` guarantee: for a non-empty pool and a query sharing no
scoring word with any document, it returns `[]` even though candidate
content (non-empty fallback chunks) exists. -/
theorem rag_search_naive_returns_empty_counterexample :
    rag_search_naive 1600 ["hello world".data] "zzzz qqqq".data 5 = []
      ∧ ["hello world".data] ≠ ([] : List PStr)
      ∧ fallbackChunks 1600 ["hello world".data] ≠ [] := by
  decide

/-- C5 (amended): the first-`k`, k-bounded, non-empty guarantee holds on the
two scoped retrieval paths built by `build_scoped_search` — the semantic path
when the index returns zero hits, and the lexical fallback path when no query
word scores — but not on the whole-pool `_rag_search_naive` path. -/
theorem scoped_search_first_k_guarantee :
    (∀ (chunkTexts : List PStr) (simSearch : PStr → Nat → List PStr) (q : PStr) (k : Nat),
        chunkTexts ≠ [] → 0 < k → simSearch q k = [] →
          scoped_semantic_search chunkTexts simSearch q k ≠ []
            ∧ (scoped_semantic_search chunkTexts simSearch q k).length ≤ k)
      ∧ (∀ (maxChars k : Nat) (raw : List PStr) (q : PStr),
          0 < k → (∀ c ∈ raw, naiveScore (queryWords q) c = 0) →
          fallbackChunks maxChars raw ≠ [] →
            naive_scoped_search maxChars raw q k ≠ []
              ∧ (naive_scoped_search maxChars raw q k).length ≤ k) := by
  constructor
  · intro chunkTexts simSearch q k hne hk hzero
    have hres : scoped_semantic_search chunkTexts simSearch q k = chunkTexts.take k := by
      simp [scoped_semantic_search, hzero]
    rw [hres]
    exact ⟨by simp [List.take_eq_nil_iff, hk.ne', hne], List.length_take_le k _⟩
  · intro m k raw q hk hz hfb
    have hsc : naiveScored (queryWords q) raw = [] := naiveScored_eq_nil _ raw hz
    have hres : naive_scoped_search m raw q k = (fallbackChunks m raw).take k := by
      simp [naive_scoped_search, hsc, sortByScoreDesc, List.insertionSort]
    rw [hres]
    exact ⟨by simp [List.take_eq_nil_iff, hk.ne', hfb], List.length_take_le k _⟩

/-- Concrete instantiation of the amended C5 theorem on both scoped paths. -/
theorem scoped_search_first_k_guarantee_witness :
    (scoped_semantic_search ["alpha chunk".data] (fun _ _ => []) "summarize this".data 2 ≠ []
        ∧ (scoped_semantic_search ["alpha chunk".data] (fun _ _ => []) "summarize this".data 2).length ≤ 2)
      ∧ (naive_scoped_search 1600 ["hello world".data] "zzzz qqqq".data 3 ≠ []
        ∧ (naive_scoped_search 1600 ["hello world".data] "zzzz qqqq".data 3).length ≤ 3) :=
  ⟨scoped_search_first_k_guarantee.1 ["alpha chunk".data] (fun _ _ => [])
      "summarize this".data 2 (by decide) (by decide) rfl,
   scoped_search_first_k_guarantee.2 1600 3 ["hello world".data] "zzzz qqqq".data
      (by decide) (by decide) (by decide)⟩

/-- C6: over an empty document pool the active store is the placeholder
store; whatever subset of its stored texts `similarity_search` returns,
`rag_search`'s result filter yields `[]` — so the `"__placeholder__"`
sentinel is never returned to callers — and the keyword fallback path over
the empty pool also returns `[]` for every query and every `k`. -/
theorem rag_search_empty_pool_empty
    (found : List PStr)
    (hfound : ∀ c ∈ found, c ∈ (get_vector_store id true [] ⟨none, none⟩).1) :
    ragSearchFilter found = []
      ∧ (∀ (maxChars : Nat) (query : PStr) (k : Nat),
          rag_search_naive maxChars [] query k = []) := by
  constructor
  · have hplace : ∀ c ∈ found, c = "__placeholder__".data := by
      intro c hc
      have h := hfound c hc
      simpa [get_vector_store, empty_vector_store] using h
    refine List.filter_eq_nil_iff.mpr ?_
    intro c hc
    rw [hplace c hc]
    decide
  · intro m q k
    simp [rag_search_naive]

/-- Concrete instantiation of the C6 theorem: the placeholder store's only
text is filtered out, and the naive path over an empty pool is empty. -/
theorem rag_search_empty_pool_empty_witness :
    ragSearchFilter ["__placeholder__".data] = []
      ∧ rag_search_naive 1600 [] "anything".data 5 = [] :=
  ⟨(rag_search_empty_pool_empty ["__placeholder__".data] (by decide)).1,
   (rag_search_empty_pool_empty ["__placeholder__".data] (by decide)).2 1600 "anything".data 5⟩

theorem stridePiecesGo_length_le (maxChars : Nat) :
    ∀ (fuel : Nat) (content : PStr), ∀ piece ∈ stridePiecesGo maxChars fuel content,
      piece.length ≤ maxChars := by
  intro fuel
  induction fuel with
  | zero =>
    intro content piece hp
    cases content <;> simp [stridePiecesGo] at hp
  | succ n ih =>
    intro content piece hp
    cases content with
    | nil => simp [stridePiecesGo] at hp
    | cons c cs =>
      simp only [stridePiecesGo, List.mem_cons] at hp
      rcases hp with rfl | hp
      · exact List.length_take_le _ _
      · exact ih _ piece hp

theorem simpleSplitGo_length_le (size : Nat) :
    ∀ (fuel i : Nat) (text : PStr), ∀ p ∈ simpleSplitGo size fuel i text,
      p.2.length ≤ size := by
  intro fuel
  induction fuel with
  | zero =>
    intro i text p hp
    cases text <;> simp [simpleSplitGo] at hp
  | succ n ih =>
    intro i text p hp
    cases text with
    | nil => simp [simpleSplitGo] at hp
    | cons c cs =>
      simp only [simpleSplitGo, List.mem_cons] at hp
      rcases hp with rfl | hp
      · exact List.length_take_le _ _
      · exact ih _ _ p hp

theorem simpleSplitGo_start_ge (size : Nat) :
    ∀ (fuel i : Nat) (text : PStr), ∀ p ∈ simpleSplitGo size fuel i text,
      i ≤ p.1 := by
  intro fuel
  induction fuel with
  | zero =>
    intro i text p hp
    cases text <;> simp [simpleSplitGo] at hp
  | succ n ih =>
    intro i text p hp
    cases text with
    | nil => simp [simpleSplitGo] at hp
    | cons c cs =>
      simp only [simpleSplitGo, List.mem_cons] at hp
      rcases hp with rfl | hp
      · exact Nat.le_refl i
      · exact Nat.le_trans (Nat.le_add_right i size) (ih (i + size) _ p hp)

theorem simpleSplitGo_pairwise (size : Nat) :
    ∀ (fuel i : Nat) (text : PStr),
      (simpleSplitGo size fuel i text).Pairwise (fun p q => p.1 + size ≤ q.1) := by
  intro fuel
  induction fuel with
  | zero =>
    intro i text
    cases text <;> simp [simpleSplitGo]
  | succ n ih =>
    intro i text
    cases text with
    | nil => simp [simpleSplitGo]
    | cons c cs =>
      simp only [simpleSplitGo, List.pairwise_cons]
      exact ⟨fun q hq => simpleSplitGo_start_ge size n (i + size) _ q hq, ih (i + size) _⟩

/-- C7 counterexample: with configured chunk size 6 and configured overlap 3
(a legal configuration via `RAG_CHUNK_SIZE`/`RAG_CHUNK_OVERLAP`), the
fallback `SimpleSplitter` produces consecutive chunks that share zero source
characters — the second chunk starts exactly where the first ends — so
consecutive chunks do not overlap by the configured amount. -/
theorem simple_split_zero_overlap_counterexample :
    simple_split 6 "abcdefghijkl".data = [(0, "abcdef".data), (6, "ghijkl".data)]
      ∧ chunkOverlap (0, "abcdef".data) (6, "ghijkl".data) = 0
      ∧ chunkOverlap (0, "abcdef".data) (6, "ghijkl".data) ≠ 3 := by
  decide

/-- C7 (amended): on the in-repository fallback chunking paths every chunk's
length is bounded by the configured size (tolerance 0), but consecutive
chunks of the same document do not overlap at all: each later chunk's source
range starts at or after the previous chunk's end. This holds for
`SimpleSplitter` and for the naive fallback's `max_chars` slicing. -/
theorem fallback_splitter_bounds :
    (∀ (size : Nat) (text : PStr), ∀ p ∈ simple_split size text, p.2.length ≤ size)
      ∧ (∀ (size : Nat) (text : PStr),
          (simple_split size text).Pairwise (fun p q => p.1 + p.2.length ≤ q.1))
      ∧ (∀ (maxChars : Nat) (content : PStr), ∀ piece ∈ stridePieces maxChars content,
          piece.length ≤ maxChars) := by
  refine ⟨?_, ?_, ?_⟩
  · intro size text p hp
    by_cases hs : size = 0
    · simp [simple_split, hs] at hp
    · simp only [simple_split, if_neg hs] at hp
      exact simpleSplitGo_length_le size text.length 0 text p (List.mem_of_mem_filter hp)
  · intro size text
    by_cases hs : size = 0
    · simp [simple_split, hs]
    · simp only [simple_split, if_neg hs]
      have hpw := simpleSplitGo_pairwise size text.length 0 text
      have hpw2 : (simpleSplitGo size text.length 0 text).Pairwise
          (fun p q => p.1 + p.2.length ≤ q.1) := by
        refine List.Pairwise.imp_of_mem ?_ hpw
        intro p q hp _ h
        exact Nat.le_trans
          (Nat.add_le_add_left (simpleSplitGo_length_le size text.length 0 text p hp) p.1) h
      exact List.Pairwise.sublist (List.filter_sublist _) hpw2
  · intro m content piece hp
    by_cases hm : m = 0
    · simp [stridePieces, hm] at hp
    · simp only [stridePieces, if_neg hm] at hp
      exact stridePiecesGo_length_le m content.length content piece hp

/-- Concrete instantiation of the amended C7 theorem. -/
theorem fallback_splitter_bounds_witness :
    ((0, "abcdef".data) ∈ simple_split 6 "abcdefghijkl".data)
      ∧ ((0, "abcdef".data) : Nat × PStr).2.length ≤ 6
      ∧ ("hello ".data ∈ stridePieces 6 "hello world".data)
      ∧ ("hello ".data : PStr).length ≤ 6 :=
  ⟨by decide,
   fallback_splitter_bounds.1 6 "abcdefghijkl".data (0, "abcdef".data) (by decide),
   by decide,
   fallback_splitter_bounds.2.2 6 "hello world".data "hello ".data (by decide)⟩

/-! ## Scope expansion (`app/rag.py` lines 115-137) -/

/-- `rel_str.replace("\\", "/")`. -/
def slashify (s : PStr) : PStr := s.map (fun c => if c = '\\' then '/' else c)

/-- `rel_str.replace("\\", "/").strip()` (`app/rag.py` line 120). -/
def pyNormPath (s : PStr) : PStr := pyStrip (slashify s)

/-- `pathlib.PurePath.name` of a slash-separated relative path: the final
component. -/
def pathName (p : PStr) : PStr := (p.reverse.takeWhile (fun c => c ≠ '/')).reverse

/-- `pathlib.PurePath.suffix`: the extension of the final component including
the dot; empty when the component has no dot, or only a leading or trailing
one. -/
def pathSuffix (p : PStr) : PStr :=
  let name := pathName p
  let revAfter := name.reverse.takeWhile (fun c => c ≠ '.')
  if revAfter.length = name.length then []
  else if 0 < name.length - revAfter.length - 1 ∧ revAfter ≠ [] then
    '.' :: revAfter.reverse
  else []

/-- `path.suffix.lower() in config.rag_allowed_extensions`. -/
def extAllowed (exts : List PStr) (p : PStr) : Bool :=
  exts.contains (pyLower (pathSuffix p))

/-- The docs directory tree as observed by `expand_rag_scope`: the
relative forward-slash paths of every file and every subdirectory under
`config.docs_dir`. -/
structure DocsFS where
  files : List PStr
  dirs : List PStr
deriving DecidableEq

/-- `path.rglob("*")` restricted to files below directory `d`: the files
whose relative path extends `d ++ "/"`. -/
def DocsFS.filesUnder (fs : DocsFS) (d : PStr) : List PStr :=
  fs.files.filter (fun f => (d ++ ['/']).isPrefixOf f)

/-- One iteration of the loop in `expand_rag_scope` (`app/rag.py`
lines 119-136): normalize the path; `""`/`"."` enumerates every allowed file
in the pool; an existing allowed file maps to itself; an existing directory
maps to the allowed files below it; anything else contributes nothing. -/
def expandOne (fs : DocsFS) (exts : List PStr) (raw : PStr) : List PStr :=
  let rel := pyNormPath raw
  if rel = [] ∨ rel = ['.'] then fs.files.filter (extAllowed exts)
  else if rel ∈ fs.files then (if extAllowed exts rel then [rel] else [])
  else if rel ∈ fs.dirs then (fs.filesUnder rel).filter (extAllowed exts)
  else []

/-- The whole loop of `expand_rag_scope`, accumulating `out`. -/
def expandAll (fs : DocsFS) (exts : List PStr) : List PStr → List PStr
  | [] => []
  | raw :: rest => expandOne fs exts raw ++ expandAll fs exts rest

/-- Python `sorted(set(out))`: the set of elements, sorted ascending. -/
def sortedSet (l : List PStr) : List PStr :=
  List.insertionSort (fun a b : PStr => a ≤ b) l.dedup

/-- `expand_rag_scope` (`app/rag.py` lines 115-137). -/
def expand_rag_scope (fs : DocsFS) (exts : List PStr) (paths : List PStr) : List PStr :=
  sortedSet (expandAll fs exts paths)

/-- A path string as the OS hands it back: already slash-normalized,
whitespace-free at both ends, and distinct from the root sentinels. Holds for
every `str(p.relative_to(docs_dir)).replace("\\", "/")` the source stores. -/
def canonicalPath (p : PStr) : Prop := pyNormPath p = p ∧ p ≠ [] ∧ p ≠ ['.']

instance (p : PStr) : Decidable (canonicalPath p) := by
  unfold canonicalPath; infer_instance

/-- Well-formedness of the observed tree: file paths are canonical. -/
def DocsFS.WF (fs : DocsFS) : Prop := ∀ f ∈ fs.files, canonicalPath f

instance (fs : DocsFS) : Decidable fs.WF := by
  unfold DocsFS.WF; infer_instance

theorem expandOne_subset (fs : DocsFS) (exts : List PStr) (raw : PStr) :
    ∀ e ∈ expandOne fs exts raw, e ∈ fs.files ∧ extAllowed exts e = true := by
  intro e he
  simp only [expandOne] at he
  split_ifs at he with h1 h2 h3 h4
  · exact ⟨(List.mem_filter.mp he).1, (List.mem_filter.mp he).2⟩
  · rcases List.mem_singleton.mp he with rfl
    exact ⟨h2, h3⟩
  · cases he
  · have h5 := List.mem_filter.mp he
    exact ⟨(List.mem_filter.mp h5.1).1, h5.2⟩
  · cases he

theorem expandOne_self (fs : DocsFS) (exts : List PStr) (e : PStr)
    (hf : e ∈ fs.files) (hext : extAllowed exts e = true) (hcan : canonicalPath e) :
    expandOne fs exts e = [e] := by
  obtain ⟨hnorm, hne, hnd⟩ := hcan
  unfold expandOne
  rw [hnorm, if_neg (by simp [hne, hnd]), if_pos hf, if_pos hext]

theorem expandAll_subset (fs : DocsFS) (exts : List PStr) :
    ∀ l : List PStr, ∀ e ∈ expandAll fs exts l,
      e ∈ fs.files ∧ extAllowed exts e = true := by
  intro l
  induction l with
  | nil => intro e he; cases he
  | cons raw rest ih =>
    intro e he
    rcases List.mem_append.mp he with h | h
    · exact expandOne_subset fs exts raw e h
    · exact ih e h

theorem expandAll_self (fs : DocsFS) (exts : List PStr) (hwf : fs.WF) :
    ∀ l : List PStr, (∀ e ∈ l, e ∈ fs.files ∧ extAllowed exts e = true) →
      expandAll fs exts l = l := by
  intro l
  induction l with
  | nil => intro _; rfl
  | cons e rest ih =>
    intro h
    have he := h e (List.mem_cons_self e rest)
    have hstep : expandAll fs exts (e :: rest) = expandOne fs exts e ++ expandAll fs exts rest := rfl
    rw [hstep, expandOne_self fs exts e he.1 he.2 (hwf e he.1),
      ih (fun x hx => h x (List.mem_cons_of_mem e hx))]
    rfl

theorem sortedSet_sorted (l : List PStr) :
    (sortedSet l).Sorted (fun a b : PStr => a ≤ b) :=
  List.sorted_insertionSort _ _

theorem sortedSet_nodup (l : List PStr) : (sortedSet l).Nodup :=
  ((List.perm_insertionSort _ _).nodup_iff).mpr (List.nodup_dedup l)

theorem mem_sortedSet {l : List PStr} {e : PStr} : e ∈ sortedSet l ↔ e ∈ l := by
  unfold sortedSet
  rw [List.Perm.mem_iff (List.perm_insertionSort _ _), List.mem_dedup]

theorem sortedSet_eq_self {l : List PStr}
    (hs : l.Sorted (fun a b : PStr => a ≤ b)) (hn : l.Nodup) : sortedSet l = l := by
  unfold sortedSet
  rw [List.dedup_eq_self.mpr hn]
  exact List.eq_of_perm_of_sorted (List.perm_insertionSort _ l)
    (List.sorted_insertionSort _ l) hs

/-- C8: `expand_rag_scope` is idempotent and duplicate-safe: on any
well-formed docs tree, expanding its own output reproduces it, and the output
is a sorted, deduplicated list of concrete file paths. -/
theorem expand_rag_scope_idempotent (fs : DocsFS) (exts : List PStr)
    (hwf : fs.WF) (paths : List PStr) :
    expand_rag_scope fs exts (expand_rag_scope fs exts paths)
        = expand_rag_scope fs exts paths
      ∧ (expand_rag_scope fs exts paths).Sorted (fun a b : PStr => a ≤ b)
      ∧ (expand_rag_scope fs exts paths).Nodup
      ∧ ∀ e ∈ expand_rag_scope fs exts paths, e ∈ fs.files := by
  refine ⟨?_, sortedSet_sorted _, sortedSet_nodup _, ?_⟩
  · have hmem : ∀ e ∈ expand_rag_scope fs exts paths,
        e ∈ fs.files ∧ extAllowed exts e = true := by
      intro e he
      exact expandAll_subset fs exts paths e (mem_sortedSet.mp he)
    show sortedSet (expandAll fs exts (expand_rag_scope fs exts paths)) = _
    rw [expandAll_self fs exts hwf _ hmem]
    exact sortedSet_eq_self (sortedSet_sorted _) (sortedSet_nodup _)
  · intro e he
    exact (expandAll_subset fs exts paths e (mem_sortedSet.mp he)).1

/-- A small concrete docs tree: three files, one subfolder. -/
def demoFS : DocsFS :=
  ⟨["a.md".data, "reports/r1.txt".data, "reports/r2.txt".data], ["reports".data]⟩

/-- The default `RAG_ALLOWED_EXTENSIONS` configuration. -/
def defaultExts : List PStr := [".md".data, ".txt".data, ".pdf".data]

/-- Concrete instantiation of the C8 theorem: a scope holding a folder, the
whole-pool sentinel and a file expands to the sorted deduplicated file list,
and re-expanding that output reproduces it. -/
theorem expand_rag_scope_idempotent_witness :
    expand_rag_scope demoFS defaultExts
        (expand_rag_scope demoFS defaultExts ["reports".data, ".".data, "a.md".data])
      = expand_rag_scope demoFS defaultExts ["reports".data, ".".data, "a.md".data]
      ∧ expand_rag_scope demoFS defaultExts ["reports".data, ".".data, "a.md".data]
        = ["a.md".data, "reports/r1.txt".data, "reports/r2.txt".data] :=
  ⟨(expand_rag_scope_idempotent demoFS defaultExts (by decide)
      ["reports".data, ".".data, "a.md".data]).1, by decide⟩

/-! ## Credential selection (`app/llm.py`) -/

/-- The api-keys dict handed to `get_base_llm`: provider name → value; the
UI builds entries whose value may itself be `None`. -/
abbrev ApiKeys := List (String × Option String)

/-- `keys.get(name)` where a present entry may hold `None`. -/
def getKey (m : ApiKeys) (nm : String) : Option String :=
  (m.lookup nm).join

/-- `_key(name)` (`app/llm.py` lines 31-33): the supplied value when it is
present, truthy and non-blank after `strip()`, else `None`. -/
def cleanKey (m : ApiKeys) (nm : String) : Option String :=
  match getKey m nm with
  | some v => if pyStrip v.data ≠ [] then some v else none
  | none => none

/-- The `"__UI_NO_KEY__"` sentinel that prevents any `.env`/ambient
fallback inside the provider client. -/
def uiNoKey : String := "__UI_NO_KEY__"

/-- `_openai_key` / `_google_key` / `_perplexity_key` on the
`use_ui_keys` path (`app/llm.py` lines 35-51): supplied non-blank key,
else the sentinel. -/
def uiKey (m : ApiKeys) (nm : String) : String :=
  (cleanKey m nm).getD uiNoKey

/-- `os.getenv(name) or None` (the `AppConfig.*_api_key` properties). -/
def envKey (env : String → Option String) (nm : String) : Option String :=
  match env nm with
  | some v => if v = "" then none else some v
  | none => none

/-- The credential argument `get_base_llm` hands the provider constructor.
For OpenAI, `none` means the `api_key` kwarg is omitted entirely (the client
then performs its own ambient lookup); for Google/Perplexity the kwarg is
always passed. -/
inductive KeyArg
  | openaiArg (key : Option String)
  | ollamaArg
  | googleArg (key : String)
  | perplexityArg (key : String)
  | unsupported
deriving DecidableEq

/-- The credential-selection logic of `get_base_llm` (`app/llm.py`
lines 15-91), projected onto the credential argument passed to the provider
constructor (model/temperature plumbing carries no credentials and is
omitted; `provider` is the already-lowercased name). `apiKeys` is the
explicit argument, `ctxKeys` the current context's `_api_keys_ctx` value;
`keys = api_keys if api_keys is not None else _api_keys_ctx.get()` and
`use_ui_keys = keys is not None` as in the source. -/
def get_base_llm_key (provider : String) (apiKeys : Option ApiKeys)
    (ctxKeys : Option ApiKeys) (env : String → Option String) : KeyArg :=
  let keys := match apiKeys with | some m => some m | none => ctxKeys
  match keys with
  | some m =>
    if provider = "openai" then .openaiArg (some (uiKey m "openai"))
    else if provider = "ollama" then .ollamaArg
    else if provider = "google" then .googleArg (uiKey m "google")
    else if provider = "perplexity" then .perplexityArg (uiKey m "perplexity")
    else .unsupported
  | none =>
    if provider = "openai" then .openaiArg (envKey env "OPENAI_API_KEY")
    else if provider = "ollama" then .ollamaArg
    else if provider = "google" then .googleArg ((envKey env "GOOGLE_API_KEY").getD "")
    else if provider = "perplexity" then
      .perplexityArg ((envKey env "PERPLEXITY_API_KEY").getD "")
    else .unsupported

/-- C2: whenever a credential map is explicitly supplied for a run (even an
empty or all-blank one), each keyed provider receives either the supplied
key or the non-ambient `"__UI_NO_KEY__"` sentinel: the argument is the same
under every environment state, and an absent or blank entry always yields
the sentinel, so the provider call hard-fails instead of silently using an
ambient identity. -/
theorem explicit_keys_never_ambient :
    (∀ (m : ApiKeys) (ctx : Option ApiKeys) (env env' : String → Option String),
        get_base_llm_key "openai" (some m) ctx env = .openaiArg (some (uiKey m "openai"))
          ∧ get_base_llm_key "google" (some m) ctx env = .googleArg (uiKey m "google")
          ∧ get_base_llm_key "perplexity" (some m) ctx env
              = .perplexityArg (uiKey m "perplexity")
          ∧ get_base_llm_key "openai" (some m) ctx env
              = get_base_llm_key "openai" (some m) ctx env'
          ∧ get_base_llm_key "google" (some m) ctx env
              = get_base_llm_key "google" (some m) ctx env'
          ∧ get_base_llm_key "perplexity" (some m) ctx env
              = get_base_llm_key "perplexity" (some m) ctx env')
      ∧ ∀ (m : ApiKeys) (nm : String), cleanKey m nm = none → uiKey m nm = uiNoKey := by
  constructor
  · intro m ctx env env'
    exact ⟨rfl, rfl, rfl, rfl, rfl, rfl⟩
  · intro m nm h
    simp [uiKey, h]

/-- Concrete instantiation of the C2 theorem: a map with only a blank Google
entry leaves OpenAI with the sentinel even under an ambient environment
key. -/
theorem explicit_keys_never_ambient_witness :
    cleanKey [("google", some "  ")] "openai" = none
      ∧ uiKey [("google", some "  ")] "openai" = uiNoKey
      ∧ get_base_llm_key "openai" (some [("google", some "  ")]) none
          (fun _ => some "sk-ambient") = .openaiArg (some uiNoKey) := by
  refine ⟨by decide, explicit_keys_never_ambient.2 [("google", some "  ")] "openai" (by decide), ?_⟩
  have h := (explicit_keys_never_ambient.1 [("google", some "  ")] none
    (fun _ => some "sk-ambient") (fun _ => none)).1
  rw [h]
  decide

/-! ## Per-run context and teardown (`app/supervisor.py` lines 152-244) -/

/-- The provider variables popped from `os.environ` when explicit keys are
supplied (`app/supervisor.py` line 175). -/
def envKeyNames : List String := ["OPENAI_API_KEY", "GOOGLE_API_KEY", "PERPLEXITY_API_KEY"]

/-- The observable per-context state `run_supervisor` touches: the current
context's RAG slot (`_rag_search_fn_ctx`, the installed search function
identified by the expanded scope it was built over), the current context's
credential slot (`_api_keys_ctx`), and `os.environ`. -/
structure RunState where
  ragSlot : Option (List PStr)
  credSlot : Option ApiKeys
  env : String → Option String

/-- `get_rag_search_fn` (`app/rag.py` lines 248-250): the current context's
RAG slot. -/
def get_rag_search_fn (s : RunState) : Option (List PStr) := s.ragSlot

/-- The value `set_rag_scope` installs (`app/rag.py` lines 231-245): `None`
scope, empty scope or empty expansion disables RAG, otherwise the search
function built over the expanded scope (identified by that scope). -/
def set_rag_scope_value (fs : DocsFS) (exts : List PStr)
    (scope : Option (List PStr)) : Option (List PStr) :=
  match scope with
  | none => none
  | some ps =>
    if ps = [] then none
    else if expand_rag_scope fs exts ps = [] then none
    else some (expand_rag_scope fs exts ps)

/-- `os.environ.pop(nm, None)`'s effect on the environment. -/
def popEnv (env : String → Option String) (nm : String) : String → Option String :=
  fun k => if k = nm then none else env k

/-- The `finally` loop restoring backed-up entries: only entries whose backup
value is not `None` are written back (`app/supervisor.py` lines 242-244). -/
def restoreEnv (env : String → Option String)
    (backup : List (String × Option String)) : String → Option String :=
  backup.foldl (fun e p =>
    match p.2 with
    | some v => fun k => if k = p.1 then some v else e k
    | none => e) env

/-- `run_supervisor` (`app/supervisor.py` lines 152-244) restricted to its
effect on the per-context slots and the environment. Setup: when `api_keys`
is not `None`, set `_api_keys_ctx` and pop the three provider variables
from `os.environ`, backing them up; then install the RAG scope. The body
(agent graph invocation, memory appends) touches none of these slots;
`raises` records whether it raises, and the `finally` block runs either way:
`rag.set_rag_scope(None)` and restoration of the backed-up environment
entries. No statement resets `_api_keys_ctx`. -/
def run_supervisor_state (fs : DocsFS) (exts : List PStr)
    (apiKeys : Option ApiKeys) (ragScope : Option (List PStr))
    (_raises : Bool) (s : RunState) : RunState :=
  let setup :=
    match apiKeys with
    | some ks =>
      ({ s with
          credSlot := some ks,
          env := envKeyNames.foldl popEnv s.env },
        envKeyNames.map (fun nm => (nm, s.env nm)))
    | none => (s, [])
  let s2 := { setup.1 with ragSlot := set_rag_scope_value fs exts ragScope }
  let s3 := { s2 with ragSlot := set_rag_scope_value fs exts none }
  { s3 with env := restoreEnv s3.env setup.2 }

/-- C1 (code-bug exhibit): whether or not the agent invocation raises, at the
end of `run_supervisor` the RAG slot is cleared (`get_rag_search_fn` returns
`None`) and the popped environment entries are restored — but the per-run
credential slot `_api_keys_ctx` is NOT cleared: the supplied credential map
is still readable from the context after the call. -/
theorem run_supervisor_leaves_credentials_set (raises : Bool) :
    get_rag_search_fn
        (run_supervisor_state demoFS defaultExts (some [("openai", some "sk-user")])
          (some ["a.md".data]) raises
          ⟨none, none, fun k => if k = "OPENAI_API_KEY" then some "sk-ambient" else none⟩)
      = none
    ∧ (run_supervisor_state demoFS defaultExts (some [("openai", some "sk-user")])
          (some ["a.md".data]) raises
          ⟨none, none, fun k => if k = "OPENAI_API_KEY" then some "sk-ambient" else none⟩).credSlot
      = some [("openai", some "sk-user")]
    ∧ (run_supervisor_state demoFS defaultExts (some [("openai", some "sk-user")])
          (some ["a.md".data]) raises
          ⟨none, none, fun k => if k = "OPENAI_API_KEY" then some "sk-ambient" else none⟩).env
        "OPENAI_API_KEY"
      = some "sk-ambient" := by
  cases raises <;> exact ⟨rfl, rfl, by decide⟩

/-! ## Context isolation (`contextvars` semantics of the two per-run slots) -/

/-- The per-context stores of the two `ContextVar`s (`_rag_search_fn_ctx`,
`app/rag.py` lines 16-18, and `_api_keys_ctx`, `app/llm.py` line 12):
each logical context — Python gives every thread and every task its own
context, so two concurrently executing turns occupy distinct contexts —
observes its own value; both variables default to `None`. -/
structure CtxWorld where
  rag : Nat → Option (List PStr)
  creds : Nat → Option ApiKeys

/-- A write to one of the two context variables. -/
inductive CtxWrite
  | setRag (v : Option (List PStr))
  | setCreds (v : Option ApiKeys)

/-- `ContextVar.set` executed inside context `c` updates only context `c`'s
entry. -/
def ctxStep (c : Nat) (w : CtxWorld) : CtxWrite → CtxWorld
  | .setRag v => { w with rag := fun c' => if c' = c then v else w.rag c' }
  | .setCreds v => { w with creds := fun c' => if c' = c then v else w.creds c' }

/-- A sequence of context-variable writes, all executed inside context `c`. -/
def ctxRun (c : Nat) (ws : List CtxWrite) (w : CtxWorld) : CtxWorld :=
  ws.foldl (ctxStep c) w

/-- The context-variable writes one `run_supervisor` turn performs, in
program order (`app/supervisor.py` lines 173-178 and 240): set the
credential slot when keys are supplied, install the scope, clear the scope
in `finally`. -/
def turnWrites (fs : DocsFS) (exts : List PStr) (apiKeys : Option ApiKeys)
    (ragScope : Option (List PStr)) : List CtxWrite :=
  (match apiKeys with
   | some ks => [CtxWrite.setCreds (some ks)]
   | none => [])
    ++ [CtxWrite.setRag (set_rag_scope_value fs exts ragScope),
        CtxWrite.setRag (set_rag_scope_value fs exts none)]

theorem ctxStep_preserves_other (a b : Nat) (hne : a ≠ b) (w : CtxWorld)
    (e : CtxWrite) :
    (ctxStep a w e).rag b = w.rag b ∧ (ctxStep a w e).creds b = w.creds b := by
  have hba : b ≠ a := Ne.symm hne
  cases e <;> simp [ctxStep, hba]

/-- C3: per-turn state set in one context is never observable from another:
for any sequence of context-variable writes executed by turn A in its own
context — in particular the exact write sequence `run_supervisor` performs —
every read turn B makes of the RAG slot or the credential slot in a distinct
context is unchanged. -/
theorem turn_isolation (a b : Nat) (hne : a ≠ b) :
    (∀ (ws : List CtxWrite) (w : CtxWorld),
        (ctxRun a ws w).rag b = w.rag b ∧ (ctxRun a ws w).creds b = w.creds b)
      ∧ ∀ (fs : DocsFS) (exts : List PStr) (apiKeys : Option ApiKeys)
          (ragScope : Option (List PStr)) (w : CtxWorld),
          (ctxRun a (turnWrites fs exts apiKeys ragScope) w).rag b = w.rag b
            ∧ (ctxRun a (turnWrites fs exts apiKeys ragScope) w).creds b = w.creds b := by
  have general : ∀ (ws : List CtxWrite) (w : CtxWorld),
      (ctxRun a ws w).rag b = w.rag b ∧ (ctxRun a ws w).creds b = w.creds b := by
    intro ws
    induction ws with
    | nil => intro w; exact ⟨rfl, rfl⟩
    | cons e ws ih =>
      intro w
      have hstep := ctxStep_preserves_other a b hne w e
      have hrest := ih (ctxStep a w e)
      exact ⟨hrest.1.trans hstep.1, hrest.2.trans hstep.2⟩
  exact ⟨general, fun fs exts apiKeys ragScope w =>
    general (turnWrites fs exts apiKeys ragScope) w⟩

/-- Concrete instantiation of the C3 theorem: a full turn in context 0 with
scope and credentials set leaves context 1's reads untouched. -/
theorem turn_isolation_witness :
    (ctxRun 0 (turnWrites demoFS defaultExts (some [("openai", some "sk-a")])
        (some ["a.md".data])) ⟨fun _ => none, fun _ => none⟩).rag 1 = none
      ∧ (ctxRun 0 (turnWrites demoFS defaultExts (some [("openai", some "sk-a")])
          (some ["a.md".data])) ⟨fun _ => none, fun _ => none⟩).creds 1 = none :=
  (turn_isolation 0 1 (by decide)).2 demoFS defaultExts
    (some [("openai", some "sk-a")]) (some ["a.md".data]) ⟨fun _ => none, fun _ => none⟩

/-! ## Conversation memory (`app/memory.py`) -/

/-- `ConversationTurn` dataclass from `app/memory.py`. -/
structure ConversationTurn where
  role : String
  content : String
  timestamp : Option String
deriving DecidableEq

/-- Python `lines[-n:]`: the last `n` elements; `lines[-0:]` is the whole
list. -/
def pyLastN (l : List String) (n : Nat) : List String :=
  if n = 0 then l else l.drop (l.length - n)

/-- The comprehension `[ConversationTurn(**json.loads(l)) for l in lines]`
with exception propagation: the first line that fails to parse aborts the
whole read (`none`); otherwise all parsed turns are returned in order.
`parse` abstracts `json.loads` followed by `ConversationTurn(**d)` field
validation (both raise on malformed input). -/
def parseAllLines (parse : String → Option ConversationTurn) :
    List String → Option (List ConversationTurn)
  | [] => some []
  | l :: ls =>
    match parse l with
    | none => none
    | some t =>
      match parseAllLines parse ls with
      | none => none
      | some ts => some (t :: ts)

/-- `MemoryStore.load_recent` (`app/memory.py` lines 32-37): `[]` when the log
file does not exist, else parse the last `n` lines of the file; a raised
exception is modelled as `none`. -/
def load_recent (parse : String → Option ConversationTurn)
    (fileExists : Bool) (lines : List String) (n : Nat) :
    Option (List ConversationTurn) :=
  if fileExists then parseAllLines parse (pyLastN lines n) else some []

theorem parseAllLines_eq_none_of_mem (parse : String → Option ConversationTurn) :
    ∀ (ls : List String) (l : String), l ∈ ls → parse l = none →
      parseAllLines parse ls = none := by
  intro ls
  induction ls with
  | nil => intro l h; cases h
  | cons a as ih =>
    intro l hmem hbad
    rcases List.mem_cons.mp hmem with rfl | htail
    · simp [parseAllLines, hbad]
    · unfold parseAllLines
      cases hpa : parse a with
      | none => rfl
      | some t => rw [ih l htail hbad]

/-- A concrete stand-in for `json.loads` + field validation, used only to
instantiate theorems on concrete inputs. -/
def demoParse (s : String) : Option ConversationTurn :=
  if s = "good-line" then some ⟨"user", "hi", none⟩ else none

/-! ## Tool-use trace extractor (`app/supervisor.py` lines 111-149) -/

/-- A single tool call as consumed by `_tool_name_from_tool_call`: either a
dict (read with `.get`) or an attribute carrier (read with `getattr`), each
with optional `name` and `tool` fields. -/
inductive ToolCall
  | dictCall (nameField toolField : Option String)
  | objCall (nameField toolField : Option String)
deriving DecidableEq

/-- Python `a or b` on optional strings: `None` and `""` are falsy. -/
def pyOrStr (a b : Option String) : Option String :=
  match a with
  | some s => if s = "" then b else some s
  | none => b

/-- `_tool_name_from_tool_call` (`app/supervisor.py` lines 111-115):
`tc.get("name") or tc.get("tool")` for dicts,
`getattr(tc, "name", None) or getattr(tc, "tool", None)` for objects. -/
def tool_name_from_tool_call : ToolCall → Option String
  | .dictCall n t => pyOrStr n t
  | .objCall n t => pyOrStr n t

/-- A message record as consumed by `_tools_used_from_messages`: a dict-shaped
record (with optional `type`, `tool_calls`, `name` entries) or any other
object (duck-typed via `getattr`, with optional `tool_calls` and `name`
attributes). -/
inductive TraceMsg
  | dictMsg (typeField : Option String) (toolCalls : Option (List ToolCall))
      (nameField : Option String)
  | objMsg (toolCalls : Option (List ToolCall)) (nameField : Option String)
deriving DecidableEq

/-- Python truthiness of `m.get("tool_calls")`: a non-`None`, non-empty list. -/
def truthyCalls : Option (List ToolCall) → Bool
  | some (_ :: _) => true
  | _ => false

/-- Python truthiness of an optional string. -/
def truthyStr : Option String → Bool
  | some s => s ≠ ""
  | none => false

/-- The `seen` set and `out` list threaded through
`_tools_used_from_messages`. -/
structure ExtractState where
  seen : List String
  out : List String
deriving DecidableEq

/-- `if name and name not in seen: seen.add(name); out.append(name)`. -/
def addName (st : ExtractState) (n : Option String) : ExtractState :=
  match n with
  | some s => if s ≠ "" ∧ s ∉ st.seen then ⟨s :: st.seen, st.out ++ [s]⟩ else st
  | none => st

/-- The inner loop over a `tool_calls` list. -/
def processToolCalls (st : ExtractState) (tcs : List ToolCall) : ExtractState :=
  tcs.foldl (fun st tc => addName st (tool_name_from_tool_call tc)) st

/-- One iteration of the message loop in `_tools_used_from_messages`
(`app/supervisor.py` lines 122-148). -/
def processMsg (st : ExtractState) : TraceMsg → ExtractState
  | .dictMsg ty tcs nm =>
    if ty = some "ai" ∧ truthyCalls tcs then processToolCalls st (tcs.getD [])
    else if ty = some "tool" ∧ truthyStr nm then addName st nm
    else st
  | .objMsg tcs nm => addName (processToolCalls st (tcs.getD [])) nm

/-- `_tools_used_from_messages` (`app/supervisor.py` lines 118-149). -/
def tools_used_from_messages (msgs : List TraceMsg) : List String :=
  (msgs.foldl processMsg ⟨[], []⟩).out

/-- The sequence of valid (non-falsy) capability names a single record
contributes, in source order; spec-side description of §4.8. -/
def okName : Option String → List String
  | some s => if s = "" then [] else [s]
  | none => []

/-- Valid names contributed by a `tool_calls` list, in order. -/
def catNames (tcs : List ToolCall) : List String :=
  tcs.foldr (fun tc acc => okName (tool_name_from_tool_call tc) ++ acc) []

/-- Valid names contributed by one record, in order. -/
def msgNames : TraceMsg → List String
  | .dictMsg ty tcs nm =>
    if ty = some "ai" ∧ truthyCalls tcs then catNames (tcs.getD [])
    else if ty = some "tool" ∧ truthyStr nm then okName nm
    else []
  | .objMsg tcs nm => catNames (tcs.getD []) ++ okName nm

/-- All valid names in a record sequence, in encounter order. -/
def rawNames (msgs : List TraceMsg) : List String :=
  msgs.foldr (fun m acc => msgNames m ++ acc) []

/-- First-seen-order deduplication relative to an already-seen set. -/
def dedupFirstAux (seen : List String) : List String → List String
  | [] => []
  | x :: xs => if x ∈ seen then dedupFirstAux seen xs else x :: dedupFirstAux (x :: seen) xs

/-- First-seen-order deduplication, the spec's description of the extractor's
output (§4.8: "ordered, deduplicated sequence ... in first-seen order"). -/
def dedupFirst (l : List String) : List String := dedupFirstAux [] l

theorem dedupFirstAux_append (l₁ : List String) :
    ∀ (seen l₂ : List String),
      dedupFirstAux seen (l₁ ++ l₂)
        = dedupFirstAux seen l₁
          ++ dedupFirstAux ((dedupFirstAux seen l₁).reverse ++ seen) l₂ := by
  induction l₁ with
  | nil => intro seen l₂; simp [dedupFirstAux]
  | cons x l₁ ih =>
    intro seen l₂
    by_cases hx : x ∈ seen
    · simpa [dedupFirstAux, hx] using ih seen l₂
    · have e1 : dedupFirstAux seen ((x :: l₁) ++ l₂)
          = x :: dedupFirstAux (x :: seen) (l₁ ++ l₂) := by
        simp [dedupFirstAux, hx]
      have e2 : dedupFirstAux seen (x :: l₁) = x :: dedupFirstAux (x :: seen) l₁ := by
        simp [dedupFirstAux, hx]
      rw [e1, e2, ih (x :: seen) l₂]
      simp [List.append_assoc]

theorem addName_spec (st : ExtractState) (n : Option String) :
    (addName st n).out = st.out ++ dedupFirstAux st.seen (okName n)
      ∧ (addName st n).seen = (dedupFirstAux st.seen (okName n)).reverse ++ st.seen := by
  cases n with
  | none => simp [addName, okName, dedupFirstAux]
  | some s =>
    by_cases hs : s = ""
    · simp [addName, okName, hs, dedupFirstAux]
    · by_cases hmem : s ∈ st.seen
      · simp [addName, okName, hs, hmem, dedupFirstAux]
      · simp [addName, okName, hs, hmem, dedupFirstAux]

theorem processToolCalls_spec :
    ∀ (tcs : List ToolCall) (st : ExtractState),
      (processToolCalls st tcs).out = st.out ++ dedupFirstAux st.seen (catNames tcs)
        ∧ (processToolCalls st tcs).seen
            = (dedupFirstAux st.seen (catNames tcs)).reverse ++ st.seen := by
  intro tcs
  induction tcs with
  | nil => intro st; simp [processToolCalls, catNames, dedupFirstAux]
  | cons tc tcs ih =>
    intro st
    have hstep : processToolCalls st (tc :: tcs)
        = processToolCalls (addName st (tool_name_from_tool_call tc)) tcs := rfl
    have ha := addName_spec st (tool_name_from_tool_call tc)
    have hi := ih (addName st (tool_name_from_tool_call tc))
    have hcat : catNames (tc :: tcs)
        = okName (tool_name_from_tool_call tc) ++ catNames tcs := rfl
    rw [hstep, hcat, dedupFirstAux_append]
    constructor
    · rw [hi.1, ha.1, ha.2, List.append_assoc]
    · rw [hi.2, ha.2]
      simp [List.reverse_append, List.append_assoc]

theorem processMsg_spec (m : TraceMsg) (st : ExtractState) :
    (processMsg st m).out = st.out ++ dedupFirstAux st.seen (msgNames m)
      ∧ (processMsg st m).seen
          = (dedupFirstAux st.seen (msgNames m)).reverse ++ st.seen := by
  cases m with
  | dictMsg ty tcs nm =>
    by_cases h1 : ty = some "ai" ∧ truthyCalls tcs
    · simpa [processMsg, msgNames, h1] using processToolCalls_spec (tcs.getD []) st
    · by_cases h2 : ty = some "tool" ∧ truthyStr nm
      · simpa [processMsg, msgNames, h1, h2] using addName_spec st nm
      · simp [processMsg, msgNames, h1, h2, dedupFirstAux]
  | objMsg tcs nm =>
    have hp := processToolCalls_spec (tcs.getD []) st
    have ha := addName_spec (processToolCalls st (tcs.getD [])) nm
    simp only [processMsg, msgNames]
    rw [dedupFirstAux_append]
    constructor
    · rw [ha.1, hp.1, hp.2, List.append_assoc]
    · rw [ha.2, hp.2]
      simp [List.reverse_append, List.append_assoc]

theorem tools_used_general :
    ∀ (msgs : List TraceMsg) (st : ExtractState),
      (msgs.foldl processMsg st).out = st.out ++ dedupFirstAux st.seen (rawNames msgs)
        ∧ (msgs.foldl processMsg st).seen
            = (dedupFirstAux st.seen (rawNames msgs)).reverse ++ st.seen := by
  intro msgs
  induction msgs with
  | nil => intro st; simp [rawNames, dedupFirstAux]
  | cons m msgs ih =>
    intro st
    have hm := processMsg_spec m st
    have hi := ih (processMsg st m)
    have hraw : rawNames (m :: msgs) = msgNames m ++ rawNames msgs := rfl
    rw [List.foldl_cons, hraw, dedupFirstAux_append]
    constructor
    · rw [hi.1, hm.1, hm.2, List.append_assoc]
    · rw [hi.2, hm.2]
      simp [List.reverse_append, List.append_assoc]

theorem dedupFirstAux_nodup :
    ∀ (l seen : List String),
      (dedupFirstAux seen l).Nodup ∧ ∀ x ∈ dedupFirstAux seen l, x ∉ seen := by
  intro l
  induction l with
  | nil => intro seen; simp [dedupFirstAux]
  | cons a l ih =>
    intro seen
    by_cases ha : a ∈ seen
    · simpa [dedupFirstAux, ha] using ih seen
    · have h := ih (a :: seen)
      refine ⟨?_, ?_⟩
      · simp only [dedupFirstAux, if_neg ha, List.nodup_cons]
        exact ⟨fun hmem => (h.2 a hmem) (List.mem_cons_self a seen), h.1⟩
      · intro x hx
        simp only [dedupFirstAux, if_neg ha, List.mem_cons] at hx
        rcases hx with rfl | hx
        · exact ha
        · intro hxs
          exact (h.2 x hx) (List.mem_cons_of_mem a hxs)

/-- C9: the tool-use trace extractor `_tools_used_from_messages` returns the
invoked capability names deduplicated in first-seen order over any
heterogeneous record sequence (its output is exactly the first-seen-order
dedup of the names encountered, hence each name appears exactly once), and on
a trace where capability "X" appears in assistant records and capability "Y"
in later tool-result records — with missing fields throughout, on which the
total extractor cannot raise — it returns `["X", "Y"]`. -/
theorem tools_used_first_seen_dedup :
    (∀ msgs : List TraceMsg, tools_used_from_messages msgs = dedupFirst (rawNames msgs))
      ∧ (∀ msgs : List TraceMsg, (tools_used_from_messages msgs).Nodup)
      ∧ tools_used_from_messages
          [.objMsg (some [.dictCall (some "X") none]) none,
           .dictMsg (some "ai") (some [.objCall none (some "X")]) none,
           .dictMsg (some "tool") none (some "Y"),
           .objMsg none (some "Y")]
        = ["X", "Y"] := by
  have key : ∀ msgs : List TraceMsg,
      tools_used_from_messages msgs = dedupFirstAux [] (rawNames msgs) := by
    intro msgs
    have h := (tools_used_general msgs ⟨[], []⟩).1
    simpa [tools_used_from_messages] using h
  refine ⟨?_, ?_, ?_⟩
  · intro msgs
    exact key msgs
  · intro msgs
    rw [key msgs]
    exact (dedupFirstAux_nodup (rawNames msgs) []).1
  · decide

/-- C10: if the conversation log contains, within the last `n` lines, any
line that is not a valid JSON record with the expected fields, then
`MemoryStore.load_recent` raises (modelled as `none`) and returns no records
at all: a single malformed line aborts the entire read. -/
theorem load_recent_aborts_on_malformed_line
    (parse : String → Option ConversationTurn) (lines : List String) (n : Nat)
    (l : String) (hmem : l ∈ pyLastN lines n) (hbad : parse l = none) :
    load_recent parse true lines n = none := by
  simp only [load_recent, if_true]
  exact parseAllLines_eq_none_of_mem parse _ l hmem hbad

/-- Concrete instantiation of the C10 theorem: a two-line log whose last line
is malformed yields no records. -/
theorem load_recent_aborts_on_malformed_line_witness :
    ("bad-line" ∈ pyLastN ["good-line", "bad-line"] 2)
      ∧ demoParse "bad-line" = none
      ∧ load_recent demoParse true ["good-line", "bad-line"] 2 = none :=
  ⟨by decide, by decide,
    load_recent_aborts_on_malformed_line demoParse ["good-line", "bad-line"] 2
      "bad-line" (by decide) (by decide)⟩

end Helio
